import Mathlib

/-!
Verification development for the Peerster gossip node.

Bytes are modelled as natural numbers below 256, byte strings as `List Nat`,
and all machine arithmetic is `Nat` arithmetic reduced modulo the word size
where the Go source overflows.  Each definition embeds the Go function of the
same name; fallible operations return `Option`.
-/

namespace Peerster

/-! ## SHA-256 (crypto/sha256), over byte lists -/

/-- Truncation to a 32-bit word, the implicit wrap-around of Go `uint32`. -/
def w32 (n : Nat) : Nat := n % 4294967296

/-- Right rotation of a 32-bit word. -/
def rotr (n x : Nat) : Nat := w32 ((x >>> n) ||| (x <<< (32 - n)))

def shaCh (x y z : Nat) : Nat := (x &&& y) ^^^ ((x ^^^ 4294967295) &&& z)

def shaMaj (x y z : Nat) : Nat := (x &&& y) ^^^ (x &&& z) ^^^ (y &&& z)

def bsig0 (x : Nat) : Nat := rotr 2 x ^^^ rotr 13 x ^^^ rotr 22 x

def bsig1 (x : Nat) : Nat := rotr 6 x ^^^ rotr 11 x ^^^ rotr 25 x

def ssig0 (x : Nat) : Nat := rotr 7 x ^^^ rotr 18 x ^^^ (x >>> 3)

def ssig1 (x : Nat) : Nat := rotr 17 x ^^^ rotr 19 x ^^^ (x >>> 10)

/-- The 64 SHA-256 round constants (decimal). -/
def shaK : List Nat :=
  [1116352408, 1899447441, 3049323471, 3921009573, 961987163, 1508970993,
   2453635748, 2870763221, 3624381080, 310598401, 607225278, 1426881987,
   1925078388, 2162078206, 2614888103, 3248222580, 3835390401, 4022224774,
   264347078, 604807628, 770255983, 1249150122, 1555081692, 1996064986,
   2554220882, 2821834349, 2952996808, 3210313671, 3336571891, 3584528711,
   113926993, 338241895, 666307205, 773529912, 1294757372, 1396182291,
   1695183700, 1986661051, 2177026350, 2456956037, 2730485921, 2820302411,
   3259730800, 3345764771, 3516065817, 3600352804, 4094571909, 275423344,
   430227734, 506948616, 659060556, 883997877, 958139571, 1322822218,
   1537002063, 1747873779, 1955562222, 2024104815, 2227730452, 2361852424,
   2428436474, 2756734187, 3204031479, 3329325298]

/-- The initial SHA-256 state (decimal). -/
def shaH0 : List Nat :=
  [1779033703, 3144134277, 1013904242, 2773480762,
   1359893119, 2600822924, 528734635, 1541459225]

/-- Big-endian 8-byte encoding of a length (in bits). -/
def be64 (n : Nat) : List Nat :=
  [(n / 2 ^ 56) % 256, (n / 2 ^ 48) % 256, (n / 2 ^ 40) % 256, (n / 2 ^ 32) % 256,
   (n / 2 ^ 24) % 256, (n / 2 ^ 16) % 256, (n / 2 ^ 8) % 256, n % 256]

/-- Big-endian 4-byte encoding of a 32-bit word. -/
def be32 (n : Nat) : List Nat :=
  [(n / 2 ^ 24) % 256, (n / 2 ^ 16) % 256, (n / 2 ^ 8) % 256, n % 256]

/-- Merkle–Damgård padding: a 0x80 byte, zeros to 56 mod 64, then the bit length. -/
def sha256pad (msg : List Nat) : List Nat :=
  msg ++ 128 :: List.replicate ((56 + 64 - (msg.length + 1) % 64) % 64) 0 ++ be64 (8 * msg.length)

/-- Group bytes into big-endian 32-bit words. -/
def toWords : List Nat → List Nat
  | a :: b :: c :: d :: rest => (((a * 256 + b) * 256 + c) * 256 + d) :: toWords rest
  | _ => []

/-- Split a word list into 16-word message blocks; the fuel (first argument)
only bounds the recursion and is always supplied at least the list length. -/
def chunksOf16F : Nat → List Nat → List (List Nat)
  | 0, _ => []
  | _, [] => []
  | fuel + 1, ws => ws.take 16 :: chunksOf16F fuel (ws.drop 16)

def chunksOf16 (ws : List Nat) : List (List Nat) := chunksOf16F ws.length ws

/-- One message-schedule extension step. -/
def schedExt (w : List Nat) : List Nat :=
  w ++ [w32 (ssig1 (w.getD (w.length - 2) 0) + w.getD (w.length - 7) 0 +
             ssig0 (w.getD (w.length - 15) 0) + w.getD (w.length - 16) 0)]

/-- Message-schedule expansion from 16 to 64 words (48 extension steps). -/
def schedF : Nat → List Nat → List Nat
  | 0, w => w
  | fuel + 1, w => if w.length ≥ 64 then w else schedF fuel (schedExt w)

def sched (w : List Nat) : List Nat := schedF 48 w

/-- One SHA-256 round on the 8-word working state. -/
def shaRound (st : List Nat) (kw : Nat × Nat) : List Nat :=
  let a := st.getD 0 0
  let b := st.getD 1 0
  let c := st.getD 2 0
  let d := st.getD 3 0
  let e := st.getD 4 0
  let f := st.getD 5 0
  let g := st.getD 6 0
  let h := st.getD 7 0
  let t1 := w32 (h + bsig1 e + shaCh e f g + kw.1 + kw.2)
  let t2 := w32 (bsig0 a + shaMaj a b c)
  [w32 (t1 + t2), a, b, c, w32 (d + t1), e, f, g]

/-- Compression of one 16-word block into the hash state. -/
def shaCompress (h : List Nat) (blockWords : List Nat) : List Nat :=
  let st := (shaK.zip (sched blockWords)).foldl shaRound h
  (h.zip st).map (fun p => w32 (p.1 + p.2))

/-- SHA-256 of a byte list, as a 32-byte list. `crypto/sha256.Sum256`. -/
def sha256Bytes (msg : List Nat) : List Nat :=
  (((chunksOf16 (toWords (sha256pad msg))).foldl shaCompress shaH0).map be32).flatten

/-! ## Communication models (models/CommunicationModels.go)

Strings are modelled as byte lists (`List Nat`). -/

/-- `File { Name, Size, MetafileHash }`. -/
structure File where
  Name : List Nat
  Size : Int
  MetafileHash : List Nat
deriving DecidableEq, Repr

/-- `TxPublish { File, HopLimit }`. -/
structure TxPublish where
  File : Peerster.File
  HopLimit : Nat
deriving DecidableEq, Repr

/-- `Block { PrevHash, Nonce, Transactions }`; the two hashes are 32-byte lists. -/
structure Block where
  PrevHash : List Nat
  Nonce : List Nat
  Transactions : List TxPublish
deriving DecidableEq, Repr

/-- `SearchResult { FileName, MetafileHash, ChunkMap, ChunkCount }`. -/
structure SearchResult where
  FileName : List Nat
  MetafileHash : List Nat
  ChunkMap : List Nat
  ChunkCount : Nat
deriving DecidableEq, Repr

/-- `DataReply { Origin, Destination, HopLimit, HashValue, Data }`. -/
structure DataReply where
  Origin : List Nat
  Destination : List Nat
  HopLimit : Nat
  HashValue : List Nat
  Data : List Nat
deriving DecidableEq, Repr

/-- `binary.Write(h, binary.LittleEndian, uint32(n))`: 4 little-endian bytes. -/
def leU32 (n : Nat) : List Nat :=
  [n % 256, (n / 256) % 256, (n / 2 ^ 16) % 256, (n / 2 ^ 24) % 256]

/-- `TxPublish.Hash`: the streamed writes `LE-u32(len(Name)) || Name || MetafileHash`
hashed with SHA-256. -/
def TxPublish.Hash (t : TxPublish) : List Nat :=
  sha256Bytes (leU32 t.File.Name.length ++ t.File.Name ++ t.File.MetafileHash)

/-- `Block.Hash`: the streamed writes
`PrevHash || Nonce || LE-u32(len(Transactions)) || concat(Hash(tx_i))` hashed with SHA-256. -/
def Block.Hash (b : Block) : List Nat :=
  sha256Bytes (b.PrevHash ++ b.Nonce ++ leU32 b.Transactions.length ++
    (b.Transactions.map TxPublish.Hash).flatten)

/-- Modelled from the spec: the config package is absent from src; proof-of-work
checks that the first `K` bytes of the block hash are zero, `K` small, e.g. 2. -/
def BlockhainBytesForGoodBlock : Nat := 2

/-- `Block.IsGood`: the loop over `i < BlockhainBytesForGoodBlock` returning false
on the first nonzero hash byte. -/
def Block.IsGood (b : Block) : Bool :=
  (List.range BlockhainBytesForGoodBlock).all (fun i => b.Hash.getD i 0 == 0)

/-! ## Blockchain engine (models/blockchain/BlockchainManager.go)

The file `BlockNode.go` (blockNode, TransactionsSet, getLSA, InitFakeBlockNode)
is absent from src; those parts are modelled from the spec. -/

/-- Modelled from the spec: a blockchain node is (block, parent-pointer, depth,
transaction-set); the tree is rooted at a synthetic genesis (`fake`). -/
inductive BlockNode where
  | fake : BlockNode
  | node : BlockNode → Block → BlockNode
deriving DecidableEq, Repr

def BlockNode.parent : BlockNode → BlockNode
  | .fake => .fake
  | .node p _ => p

def BlockNode.depth : BlockNode → Nat
  | .fake => 0
  | .node p _ => p.depth + 1

def BlockNode.isFake : BlockNode → Bool
  | .fake => true
  | .node _ _ => false

/-- Modelled from the spec: the synthetic genesis carries the all-zero hash;
a real node's hash is its block's hash. -/
def BlockNode.getBlockHash : BlockNode → List Nat
  | .fake => List.replicate 32 0
  | .node _ b => b.Hash

/-- Modelled from the spec: a transaction is (filename, size, metafile-hash),
so `TransactionsSet` is a set of `File` values; a node's set holds its block's
transactions. -/
def txSetOfBlock (b : Block) : List Peerster.File :=
  b.Transactions.map (fun t => t.File)

def BlockNode.txSet : BlockNode → List Peerster.File
  | .fake => []
  | .node _ b => txSetOfBlock b

/-- `TransactionsSet.contains`, membership in the set. -/
def tsContains (s : List Peerster.File) (f : Peerster.File) : Bool := s.contains f

/-- `TransactionsSet.containsFilename`: some element reserves this filename. -/
def tsContainsFilename (s : List Peerster.File) (name : List Nat) : Bool :=
  s.any (fun f => f.Name == name)

/-- `TransactionsSet.add`. -/
def tsAdd (s : List Peerster.File) (f : Peerster.File) : List Peerster.File := s ++ [f]

/-- `TransactionsSet.union`, set union. -/
def tsUnion (s t : List Peerster.File) : List Peerster.File :=
  s ++ t.filter (fun f => !s.contains f)

/-- `TransactionsSet.subtract`, set difference. -/
def tsSubtract (s t : List Peerster.File) : List Peerster.File :=
  s.filter (fun f => !t.contains f)

/-- Modelled from the spec: `getLSA` finds the lowest common ancestor of two
nodes of the block tree by walking parent pointers; the fuel (first argument)
only bounds the walk and is always supplied beyond the two depths. -/
def getLSAF : Nat → BlockNode → BlockNode → BlockNode
  | 0, _, _ => .fake
  | _, .fake, _ => .fake
  | _, _, .fake => .fake
  | fuel + 1, .node pa ba, .node pb bb =>
    if (BlockNode.node pa ba).depth > (BlockNode.node pb bb).depth then
      getLSAF fuel pa (.node pb bb)
    else if (BlockNode.node pb bb).depth > (BlockNode.node pa ba).depth then
      getLSAF fuel (.node pa ba) pb
    else if BlockNode.node pa ba = BlockNode.node pb bb then
      BlockNode.node pa ba
    else
      getLSAF fuel pa pb

def getLSA (a b : BlockNode) : BlockNode := getLSAF (a.depth + b.depth + 1) a b

/-- The `BlockchainManager` state: tail of the longest chain, the hash-indexed
tree, and the pending transaction set. -/
structure BMState where
  tail : BlockNode
  blocks : List (List Nat × BlockNode)
  pendingTx : List Peerster.File
deriving DecidableEq, Repr

/-- `InitBlockchainManager`: fake genesis registered under the all-zero hash. -/
def InitBlockchainManager : BMState :=
  { tail := .fake, blocks := [(List.replicate 32 0, BlockNode.fake)], pendingTx := [] }

/-- The roll-back loop `for cur := tail; cur != lsa; cur = cur.parent
{ pendingTx.union(cur.txSet) }`. -/
def rollbackPath : BlockNode → BlockNode → List Peerster.File → List Peerster.File
  | .fake, _, p => p
  | .node par b, lsa, p =>
    if BlockNode.node par b = lsa then p
    else rollbackPath par lsa (tsUnion p (txSetOfBlock b))

/-- The forward-apply loop `for cur := newNode; cur != lsa; cur = cur.parent
{ pendingTx.subtract(cur.txSet) }`. -/
def applyPath : BlockNode → BlockNode → List Peerster.File → List Peerster.File
  | .fake, _, p => p
  | .node par b, lsa, p =>
    if BlockNode.node par b = lsa then p
    else applyPath par lsa (tsSubtract p (txSetOfBlock b))

/-- `addBlock`: returns whether the block was accepted, and the new state.
Note: in the source's fork-wins branch `bm.tail` is never reassigned, so the
embedding keeps `tail := st.tail` there. -/
def addBlock (st : BMState) (block : Block) : Bool × BMState :=
  if (st.blocks.lookup block.Hash).isSome then (false, st)
  else
    match st.blocks.lookup block.PrevHash with
    | none => (false, st)
    | some parentNode =>
      if !block.IsGood then (false, st)
      else if block.PrevHash == st.tail.getBlockHash then
        let newTail := BlockNode.node st.tail block
        (true, { tail := newTail, blocks := (block.Hash, newTail) :: st.blocks,
                 pendingTx := tsSubtract st.pendingTx (txSetOfBlock block) })
      else if parentNode.depth < st.tail.depth then
        (true, { st with blocks := (block.Hash, BlockNode.node parentNode block) :: st.blocks })
      else
        let lsa := getLSA st.tail parentNode
        let p1 := rollbackPath st.tail lsa st.pendingTx
        let newNode := BlockNode.node parentNode block
        let p2 := applyPath newNode lsa p1
        (true, { tail := st.tail, blocks := (block.Hash, newNode) :: st.blocks,
                 pendingTx := p2 })

/-- The loop in `addTransaction` walking the official history from tail to
genesis, true when some block contains the transaction or reserves its name. -/
def chainBlocksTx : BlockNode → TxPublish → Bool
  | .fake, _ => false
  | .node par b, tx =>
    tsContains (txSetOfBlock b) tx.File || tsContainsFilename (txSetOfBlock b) tx.File.Name ||
      chainBlocksTx par tx

/-- `addTransaction`: reject when pending or the main chain already has the
transaction or its filename, else add to pending. -/
def addTransaction (st : BMState) (tx : TxPublish) : Bool × BMState :=
  if tsContains st.pendingTx tx.File then (false, st)
  else if tsContainsFilename st.pendingTx tx.File.Name then (false, st)
  else if chainBlocksTx st.tail tx then (false, st)
  else (true, { st with pendingTx := tsAdd st.pendingTx tx.File })

/-- The nodes of the main chain from a tail down to (and excluding) genesis. -/
def chainNodes : BlockNode → List BlockNode
  | .fake => []
  | .node p b => BlockNode.node p b :: chainNodes p

/-! ### A concrete fork scenario

Three blocks with genuine proof-of-work (their hashes start with
`BlockhainBytesForGoodBlock` zero bytes): `blockA` and `blockB1` are siblings
on genesis, `blockB2` extends `blockB1`.  After `blockA` (the tail) and
`blockB1` (a short chain), `blockB2` makes the `B` branch strictly deeper. -/

def fA : Peerster.File := { Name := [97], Size := 1, MetafileHash := List.replicate 32 1 }

def fB : Peerster.File := { Name := [98], Size := 1, MetafileHash := List.replicate 32 2 }

def fC : Peerster.File := { Name := [99], Size := 1, MetafileHash := List.replicate 32 3 }

def txA : TxPublish := { File := fA, HopLimit := 10 }

def txB1 : TxPublish := { File := fB, HopLimit := 10 }

def txB2 : TxPublish := { File := fC, HopLimit := 10 }

def blockA : Block :=
  { PrevHash := List.replicate 32 0, Nonce := List.replicate 30 0 ++ [202, 142],
    Transactions := [txA] }

def blockB1 : Block :=
  { PrevHash := List.replicate 32 0, Nonce := List.replicate 30 0 ++ [38, 211],
    Transactions := [txB1] }

def blockB2 : Block :=
  { PrevHash := blockB1.Hash, Nonce := List.replicate 30 0 ++ [223, 110],
    Transactions := [txB2] }

/-- `txA` submitted to a fresh manager: pending = {fA}. -/
def forkSt0 : BMState := (addTransaction InitBlockchainManager txA).2

/-- `blockA` extends genesis and becomes the tail; pending is emptied. -/
def forkSt1 : BMState := (addBlock forkSt0 blockA).2

/-- `blockB1` starts a short sibling chain; tail and pending untouched. -/
def forkSt2 : BMState := (addBlock forkSt1 blockB1).2

/-- `blockB2` lands on the `B` branch, which now out-grows the tail. -/
def forkStep : Bool × BMState := addBlock forkSt2 blockB2

/-! ## File sharing (models/filesharing/SharedFile.go) -/

/-- Modelled from the spec: CHUNK_SIZE, e.g. 8 KiB (config absent from src). -/
def FileChunkSize : Nat := 8192

/-- The chunk-splitting loop of `shareFile`: the accumulating chunk is flushed
every `FileChunkSize` bytes and at the end of the file.  The fuel (first
argument) only bounds the recursion and is always supplied the byte count. -/
def splitInChunksF : Nat → List Nat → List (List Nat)
  | 0, _ => []
  | _, [] => []
  | fuel + 1, l => l.take FileChunkSize :: splitInChunksF fuel (l.drop FileChunkSize)

def splitInChunks (l : List Nat) : List (List Nat) := splitInChunksF l.length l

/-- First-occurrence deduplication: the insertion order of a Go map-as-set. -/
def dedupKeep (l : List (List Nat)) : List (List Nat) :=
  l.foldl (fun acc h => if acc.contains h then acc else acc ++ [h]) []

/-- `sharedFile { Name, Size, MetaHash, MetaSlice, MetaSet }`; `MetaSet` is the
set of chunk hashes, kept as a duplicate-free list. -/
structure sharedFile where
  Name : List Nat
  Size : Nat
  MetaHash : List Nat
  MetaSlice : List Nat
  MetaSet : List (List Nat)
deriving DecidableEq, Repr

/-- The pure core of `shareFile`: split the bytes in chunks, hash each chunk
into `MetaSlice` (ordered) and `MetaSet` (deduplicated), hash the metafile. -/
def shareFileModel (name : List Nat) (fileBytes : List Nat) : sharedFile :=
  let chunks := splitInChunks fileBytes
  let hashes := chunks.map sha256Bytes
  let metaSlice := hashes.flatten
  { Name := name, Size := fileBytes.length, MetaHash := sha256Bytes metaSlice,
    MetaSlice := metaSlice, MetaSet := dedupKeep hashes }

/-- A compiled pattern character: a literal byte, or `.` matching any byte. -/
inductive PatC where
  | lit (c : Nat) : PatC
  | dot : PatC
deriving DecidableEq, Repr

/-- The regex metacharacters other than `.`:
`* + ? ( ) [ ] \x7b \x7d ^ $ | \`. -/
def regexMeta : List Nat := [42, 43, 63, 40, 41, 91, 93, 123, 125, 94, 36, 124, 92]

/-- Modelled from Go's stdlib `regexp` (outside this repository): a keyword is
compiled as a sequence of literal characters in which `.` (byte 46) matches any
single byte.  Keywords containing any other metacharacter are outside the
modelled fragment and fail to compile. -/
def compileKeyword (kw : List Nat) : Option (List PatC) :=
  if kw.any (fun c => regexMeta.contains c) then none
  else some (kw.map (fun c => if c = 46 then PatC.dot else PatC.lit c))

/-- Lock-step match of a compiled pattern against a window of equal length. -/
def patMatchWindow : List PatC → List Nat → Bool
  | [], [] => true
  | .lit c :: ps, x :: xs => (c == x) && patMatchWindow ps xs
  | .dot :: ps, _ :: xs => patMatchWindow ps xs
  | _, _ => false

/-- `regexp.MatchString(".*"+kw+".*", name)` of `getSearchResults`: unanchored
search, true when some window of the name matches the compiled keyword; a
keyword that fails to compile yields false (`err != nil` branch). -/
def keywordMatches (kw name : List Nat) : Bool :=
  match compileKeyword kw with
  | none => false
  | some p =>
    (List.range (name.length + 1)).any (fun i => patMatchWindow p ((name.drop i).take p.length))

/-- The search result built by `getSearchResults` for a matching keyword:
`ChunkCount = len(MetaSet)` and `ChunkMap = [1, …, len(MetaSet)]`. -/
def mkSearchResult (sf : sharedFile) : SearchResult :=
  { FileName := sf.Name, MetafileHash := sf.MetaHash,
    ChunkMap := (List.range sf.MetaSet.length).map (fun i => i + 1),
    ChunkCount := sf.MetaSet.length }

/-- `sharedFile.getSearchResults`: one result appended per matching keyword. -/
def sharedFile.getSearchResults (sf : sharedFile) (keywords : List (List Nat)) :
    List SearchResult :=
  keywords.foldl (fun acc kw => if keywordMatches kw sf.Name then acc ++ [mkSearchResult sf] else acc) []

/-! ## File downloading (models/filesharing, DownloadingFile) -/

/-- `DownloadingFile`; the Go maps keyed by chunk hash are duplicate-free lists. -/
structure DownloadingFile where
  Name : List Nat
  MetaHash : List Nat
  Metafile : Option (List Nat)
  ChunksHashesSlice : List (List Nat)
  ChunksHashesSet : List (List Nat)
  ChunksToDownload : List (List Nat)
deriving DecidableEq, Repr

/-- `InitDownloadingFile`: only name and metahash set, all others nil. -/
def InitDownloadingFile (name metahash : List Nat) : DownloadingFile :=
  { Name := name, MetaHash := metahash, Metafile := none,
    ChunksHashesSlice := [], ChunksHashesSet := [], ChunksToDownload := [] }

/-- Modelled from the spec: utils' `GetTypeStrictHash` converts a byte slice to
a strict 32-byte hash, failing on any other length. -/
def GetTypeStrictHash (l : List Nat) : Option (List Nat) :=
  if l.length = 32 then some l else none

/-- The metafile-parsing loop of `gotMetafile`: consecutive 32-byte hashes.
The fuel (first argument) is always supplied the byte count. -/
def split32F : Nat → List Nat → List (List Nat)
  | 0, _ => []
  | _, [] => []
  | fuel + 1, l => l.take 32 :: split32F fuel (l.drop 32)

def split32 (l : List Nat) : List (List Nat) := split32F l.length l

/-- `gotMetafile`: reject data of bad length or wrong hash, else record the
metafile and build the chunk-hash structures. -/
def gotMetafile (df : DownloadingFile) (hashValue data : List Nat) : DownloadingFile :=
  if data.length % 32 ≠ 0 ∨ hashValue ≠ df.MetaHash then df
  else
    let slice := split32 data
    { df with Metafile := some data, ChunksHashesSlice := slice,
              ChunksHashesSet := dedupKeep slice, ChunksToDownload := dedupKeep slice }

/-- `DownloadingFile.ProcessDataReply`: `none` is the Go nil (error) result;
`some b` is the returned pointer to the is-finished flag. -/
def DownloadingFile.ProcessDataReply (df : DownloadingFile) (drp : DataReply) :
    Option Bool × DownloadingFile :=
  match GetTypeStrictHash drp.HashValue with
  | none => (none, df)
  | some typedHashValue =>
    if sha256Bytes drp.Data ≠ typedHashValue then (none, df)
    else
      match df.Metafile with
      | none => (some false, gotMetafile df typedHashValue drp.Data)
      | some _ =>
        if !df.ChunksToDownload.contains typedHashValue then (none, df)
        else
          let df' := { df with ChunksToDownload := df.ChunksToDownload.erase typedHashValue }
          if df'.ChunksToDownload.isEmpty then (some true, df') else (some false, df')

/-! ## Search loop (startFileSearchingGoroutine) -/

/-- Modelled from the spec: SEARCH_START_BUDGET, e.g. 2 (config absent from src). -/
def FileSearchStartBudget : Nat := 2

/-- Modelled from the spec: SEARCH_MAX_BUDGET, e.g. 32 (config absent from src). -/
def FileSearchMaxBudget : Nat := 32

/-- The loop state of `startFileSearchingGoroutine`. -/
structure SearchLoopState where
  budget : Nat
  maxAllowedBudget : Nat
deriving DecidableEq, Repr

/-- The initialisation of `startFileSearchingGoroutine`: a client budget of 0
starts at `FileSearchStartBudget` with max `FileSearchMaxBudget`; an explicit
budget is used once (the max is set to it). -/
def initSearchLoop (budget : Nat) : SearchLoopState :=
  if budget = 0 then { budget := FileSearchStartBudget, maxAllowedBudget := FileSearchMaxBudget }
  else { budget := budget, maxAllowedBudget := budget }

inductive SearchTickAction where
  | send (budget : Nat) : SearchTickAction
  | linger : SearchTickAction
  | shutdown : SearchTickAction
deriving DecidableEq, Repr

/-- One ticker iteration of the search loop: past the max budget either linger
once (budget max+1) or shut down (budget beyond max+1); otherwise send a
SearchRequest with the current budget and increment it. -/
def searchTick (st : SearchLoopState) : SearchTickAction × SearchLoopState :=
  if st.budget > st.maxAllowedBudget then
    if st.budget > st.maxAllowedBudget + 1 then (.shutdown, st)
    else (.linger, { st with budget := st.budget + 1 })
  else (.send st.budget, { st with budget := st.budget + 1 })

/-- The budgets of the SearchRequests the loop sends, collected by running
ticker iterations until shutdown (fuel-bounded). -/
def searchSentBudgets : Nat → SearchLoopState → List Nat
  | 0, _ => []
  | fuel + 1, st =>
    match searchTick st with
    | (.send b, st') => b :: searchSentBudgets fuel st'
    | (.linger, st') => searchSentBudgets fuel st'
    | (.shutdown, _) => []

/-! ## Search-request forwarding (processSearchRequest) -/

/-- The peer loop of `processSearchRequest`: each peer gets
`budget / len(peers)` plus one while the residual `budget % len(peers)` lasts,
and is sent a SearchRequest unconditionally. -/
def distributeLoop (budget plen : Nat) : Nat → List (List Nat) → List (List Nat × Nat)
  | _, [] => []
  | residual, p :: ps =>
    let nb := budget / plen
    if residual > 0 then (p, nb + 1) :: distributeLoop budget plen (residual - 1) ps
    else (p, nb) :: distributeLoop budget plen residual ps

/-- The forwarding tail of `processSearchRequest`.  Go first computes
`budget % len(g.peers)`, which panics (integer divide by zero) when the peer
set is empty; the panic is modelled as `none`. -/
def forwardSearchRequest (budget : Nat) (peers : List (List Nat)) :
    Option (List (List Nat × Nat)) :=
  if peers.length = 0 then none
  else some (distributeLoop budget peers.length (budget % peers.length) peers)

/-! ## Rumor processing (processRumorMessage)

MessageStorage.go is absent from src; the store is modelled from the spec:
per origin the ids stored are a dense prefix from 1, and a rumor is admitted
exactly when its id is the next one. -/

/-- `RumorMessage { OriginalName, ID, Text }`. -/
structure RumorMessage where
  OriginalName : List Nat
  ID : Nat
  Text : List Nat
deriving DecidableEq, Repr

/-- Modelled from the spec: per-origin highest stored id (0 when none). -/
abbrev MessageStorage := List (List Nat × Nat)

/-- Modelled from the spec: "next id I still need from this origin". -/
def storageNextId (ms : MessageStorage) (origin : List Nat) : Nat :=
  match ms.lookup origin with
  | some n => n + 1
  | none => 1

/-- Modelled from the spec: `AddRumorMessage` admits a rumor exactly when its
id is the next id for its origin; duplicates and gaps are rejected. -/
def AddRumorMessage (ms : MessageStorage) (rmsg : RumorMessage) : Bool × MessageStorage :=
  if rmsg.ID = storageNextId ms rmsg.OriginalName then
    (true, (rmsg.OriginalName, rmsg.ID) :: ms)
  else (false, ms)

/-- `processRumorMessage`: admit the rumor; when new and the peer set is
nonempty, `spreadTheRumor(rmsg, nil)` picks `peers[randIdx]` by `getRandomPeer`
and starts a mongering session toward it unless one keyed to that peer is
already in progress (`statusesChannels`).  Returns the new store and the peer a
session was started toward, if any. -/
def processRumorMessage (ms : MessageStorage) (peers : List (List Nat))
    (sessions : List (List Nat)) (randIdx : Nat) (rmsg : RumorMessage) :
    MessageStorage × Option (List Nat) :=
  let r := AddRumorMessage ms rmsg
  if r.1 then
    if peers.isEmpty then (r.2, none)
    else
      match peers.get? randIdx with
      | none => (r.2, none)
      | some peer => if sessions.contains peer then (r.2, none) else (r.2, some peer)
  else (r.2, none)

/-! # Theorems -/

set_option maxRecDepth 20000

theorem shaRound_length (st : List Nat) (kw : Nat × Nat) : (shaRound st kw).length = 8 := rfl

theorem foldl_shaRound_length (kws : List (Nat × Nat)) :
    ∀ st : List Nat, st.length = 8 → (kws.foldl shaRound st).length = 8 := by
  induction kws with
  | nil => intro st h; simpa using h
  | cons k ks ih => intro st _; exact ih (shaRound st k) (shaRound_length st k)

theorem shaCompress_length (h bw : List Nat) (hh : h.length = 8) :
    (shaCompress h bw).length = 8 := by
  unfold shaCompress
  rw [List.length_map, List.length_zip, hh,
    foldl_shaRound_length (shaK.zip (sched bw)) h hh]
  simp

theorem foldl_shaCompress_length (blocks : List (List Nat)) :
    ∀ h : List Nat, h.length = 8 → (blocks.foldl shaCompress h).length = 8 := by
  induction blocks with
  | nil => intro h hh; simpa using hh
  | cons b bs ih => intro h hh; exact ih (shaCompress h b) (shaCompress_length h b hh)

theorem flatten_map_be32_length (l : List Nat) : ((l.map be32).flatten).length = 4 * l.length := by
  induction l with
  | nil => simp
  | cons x xs ih => simp [be32, ih]; omega

/-- SHA-256 always produces 32 bytes. -/
theorem sha256Bytes_length (msg : List Nat) : (sha256Bytes msg).length = 32 := by
  unfold sha256Bytes
  rw [flatten_map_be32_length,
    foldl_shaCompress_length (chunksOf16 (toWords (sha256pad msg))) shaH0 rfl]

/-- C9: the block hash is SHA-256 of
`prev_hash || nonce || LE-u32(len(tx)) || concat(hash(tx_i))`, the transaction
hash is SHA-256 of `LE-u32(len(name)) || name || metafile_hash`, hashes are 32
bytes, and a block is valid (IsGood) iff the first
`BlockhainBytesForGoodBlock` bytes of its hash are zero. -/
theorem c9_hash_layout_and_pow (b : Block) (t : TxPublish) :
    b.Hash = sha256Bytes (b.PrevHash ++ b.Nonce ++ leU32 b.Transactions.length ++
      (b.Transactions.map TxPublish.Hash).flatten) ∧
    t.Hash = sha256Bytes (leU32 t.File.Name.length ++ t.File.Name ++ t.File.MetafileHash) ∧
    b.Hash.length = 32 ∧ t.Hash.length = 32 ∧
    (b.IsGood = true ↔ ∀ i < BlockhainBytesForGoodBlock, b.Hash.getD i 0 = 0) := by
  refine ⟨rfl, rfl, sha256Bytes_length _, sha256Bytes_length _, ?_⟩
  simp [Block.IsGood, List.all_eq_true, List.mem_range]

/-- C8: a DataReply whose data does not hash to the carried hash value yields
the error result (`none`) and leaves the downloading-file record unchanged. -/
theorem c8_bad_hash_keeps_download_state (df : DownloadingFile) (drp : DataReply)
    (h : sha256Bytes drp.Data ≠ drp.HashValue) :
    df.ProcessDataReply drp = (none, df) := by
  by_cases hl : drp.HashValue.length = 32
  · simp [DownloadingFile.ProcessDataReply, GetTypeStrictHash, hl, h]
  · simp [DownloadingFile.ProcessDataReply, GetTypeStrictHash, hl]

theorem c8_bad_hash_keeps_download_state_witness :
    sha256Bytes ([] : List Nat) ≠ List.replicate 32 1 ∧
    (InitDownloadingFile [1] (List.replicate 32 1)).ProcessDataReply
      { Origin := [], Destination := [], HopLimit := 0,
        HashValue := List.replicate 32 1, Data := [] } =
      (none, InitDownloadingFile [1] (List.replicate 32 1)) :=
  ⟨by decide, c8_bad_hash_keeps_download_state _ _ (by decide)⟩

/-- C5: the claim fails on the code.  Forwarding a search request with an empty
peer set reaches `budget % len(g.peers)` with a zero divisor — a Go runtime
panic that kills the whole process, modelled as `none`; so processing a search
request with no known peers does crash the node. -/
theorem c5_empty_peer_set_panics_forwarding (budget : Nat) :
    forwardSearchRequest budget [] = none := by
  simp [forwardSearchRequest]

/-- C2 counterexample: with client budget 0 the loop sends budgets 2 then 3 —
the second budget is not the double of the first, refuting "on each tick
doubles the budget". -/
theorem c2_budget_does_not_double :
    (searchSentBudgets 40 (initSearchLoop 0)).take 2 = [2, 3] ∧
    ¬ (searchSentBudgets 40 (initSearchLoop 0)).getD 1 0 =
        2 * (searchSentBudgets 40 (initSearchLoop 0)).getD 0 0 := by decide

/-- C2 amended: with client budget 0 the loop starts at
`FileSearchStartBudget` and each tick sends the current budget and increments
it by one (not doubling), sending exactly the budgets 2, 3, …,
`FileSearchMaxBudget`. -/
theorem c2_budget_increments_by_one (st : SearchLoopState)
    (h : st.budget ≤ st.maxAllowedBudget) :
    searchTick st = (SearchTickAction.send st.budget, { st with budget := st.budget + 1 }) ∧
    initSearchLoop 0 = { budget := FileSearchStartBudget,
                         maxAllowedBudget := FileSearchMaxBudget } ∧
    searchSentBudgets 40 (initSearchLoop 0) = List.range' 2 31 := by
  refine ⟨?_, rfl, by decide⟩
  have hng : ¬ st.budget > st.maxAllowedBudget := by omega
  simp [searchTick, hng]

theorem c2_budget_increments_by_one_witness :
    (3 : Nat) ≤ 32 ∧
    searchTick { budget := 3, maxAllowedBudget := 32 } =
      (SearchTickAction.send 3, { budget := 4, maxAllowedBudget := 32 }) :=
  ⟨by decide, (c2_budget_increments_by_one { budget := 3, maxAllowedBudget := 32 } (by decide)).1⟩

/-- C3 counterexample: forwarding budget 1 across two peers sends a
SearchRequest with budget 0 to the second peer, refuting "no SearchRequest is
sent to a peer whose assigned budget is 0". -/
theorem c3_request_sent_to_zero_budget_peer :
    forwardSearchRequest 1 [[1], [2]] = some [([1], 1), ([2], 0)] ∧
    ([2], 0) ∈ [([1], 1), ([2], 0)] := by decide

theorem distributeLoop_spec (budget plen : Nat) (ps : List (List Nat)) :
    ∀ residual : Nat, residual ≤ ps.length →
      (distributeLoop budget plen residual ps).map Prod.fst = ps ∧
      (distributeLoop budget plen residual ps).map Prod.snd =
        List.replicate residual (budget / plen + 1) ++
          List.replicate (ps.length - residual) (budget / plen) := by
  induction ps with
  | nil =>
    intro residual h
    have : residual = 0 := by simpa using h
    subst this
    simp [distributeLoop]
  | cons p ps ih =>
    intro residual h
    cases residual with
    | zero =>
      obtain ⟨h1, h2⟩ := ih 0 (by omega)
      simp [distributeLoop, h1, h2, List.replicate_succ]
    | succ r =>
      obtain ⟨h1, h2⟩ := ih r (by simpa using h)
      have hlen : (p :: ps).length - (r + 1) = ps.length - r := by simp
      simp [distributeLoop, h1, h2, hlen, List.replicate_succ]

/-- C3 amended: with remaining budget `B` and `P ≥ 1` known peers, each peer is
assigned `⌊B/P⌋`, the first `B mod P` peers one more, and a SearchRequest is
sent to every known peer — including those whose assigned budget is 0. -/
theorem c3_floor_plus_remainder_distribution (budget : Nat) (peers : List (List Nat))
    (h : peers ≠ []) :
    ∃ l, forwardSearchRequest budget peers = some l ∧
      l.map Prod.fst = peers ∧
      l.map Prod.snd =
        List.replicate (budget % peers.length) (budget / peers.length + 1) ++
          List.replicate (peers.length - budget % peers.length) (budget / peers.length) := by
  have hpos : 0 < peers.length := List.length_pos.mpr h
  obtain ⟨h1, h2⟩ :=
    distributeLoop_spec budget peers.length peers (budget % peers.length)
      (Nat.le_of_lt (Nat.mod_lt _ hpos))
  refine ⟨distributeLoop budget peers.length (budget % peers.length) peers, ?_, h1, h2⟩
  simp [forwardSearchRequest, Nat.pos_iff_ne_zero.mp hpos]

theorem c3_floor_plus_remainder_distribution_witness :
    ([[1], [2], [3]] : List (List Nat)) ≠ [] ∧
    ∃ l, forwardSearchRequest 5 [[1], [2], [3]] = some l ∧
      l.map Prod.fst = [[1], [2], [3]] ∧
      l.map Prod.snd = List.replicate (5 % 3) (5 / 3 + 1) ++ List.replicate (3 - 5 % 3) (5 / 3) :=
  ⟨by decide, c3_floor_plus_remainder_distribution 5 [[1], [2], [3]] (by decide)⟩

/-- C6 counterexample: a new rumor arrives from peer `[9]`; the peer set also
holds `[8]`, yet with random index 0 the node begins mongering toward `[9]`,
the source itself — the code never excludes the source. -/
theorem c6_monger_target_can_be_source :
    (processRumorMessage [] [[9], [8]] [] 0
      { OriginalName := [97], ID := 1, Text := [] }).2 = some [9] := by decide

/-- C6 amended: an admitted-as-new rumor starts a mongering session toward the
uniformly random peer `peers[randIdx]` — which may be the rumor's source —
whenever the peer set is nonempty and no session with that peer is already in
progress. -/
theorem c6_monger_toward_random_peer (ms : MessageStorage) (peers sessions : List (List Nat))
    (randIdx : Nat) (rmsg : RumorMessage) (peer : List Nat)
    (hnew : rmsg.ID = storageNextId ms rmsg.OriginalName)
    (hidx : peers.get? randIdx = some peer)
    (hses : peer ∉ sessions) :
    (processRumorMessage ms peers sessions randIdx rmsg).2 = some peer := by
  have hne : peers ≠ [] := by
    intro e; subst e; simp at hidx
  have hidx' : peers[randIdx]? = some peer := by simpa using hidx
  simp [processRumorMessage, AddRumorMessage, hnew, hne, hidx', hses]

theorem tsContains_iff (s : List Peerster.File) (f : Peerster.File) :
    tsContains s f = true ↔ f ∈ s := by
  simp [tsContains]

theorem tsContainsFilename_iff (s : List Peerster.File) (name : List Nat) :
    tsContainsFilename s name = true ↔ ∃ f ∈ s, f.Name = name := by
  simp [tsContainsFilename]

theorem chainBlocksTx_iff (t : BlockNode) (tx : TxPublish) :
    chainBlocksTx t tx = true ↔
      ∃ n ∈ chainNodes t, tx.File ∈ n.txSet ∨ ∃ f ∈ n.txSet, f.Name = tx.File.Name := by
  induction t with
  | fake => simp [chainBlocksTx, chainNodes]
  | node p b ih =>
    simp only [chainBlocksTx, Bool.or_eq_true, tsContains_iff, tsContainsFilename_iff, ih,
      chainNodes, List.mem_cons]
    constructor
    · rintro ((hm | hn) | ⟨n, hn, hc⟩)
      · exact ⟨BlockNode.node p b, Or.inl rfl, Or.inl hm⟩
      · exact ⟨BlockNode.node p b, Or.inl rfl, Or.inr hn⟩
      · exact ⟨n, Or.inr hn, hc⟩
    · rintro ⟨n, hn | hn, hc⟩
      · subst hn
        rcases hc with hm | hm
        · exact Or.inl (Or.inl hm)
        · exact Or.inl (Or.inr hm)
      · exact Or.inr ⟨n, hn, hc⟩

/-- C7: `addTransaction` adds the transaction to pending and returns true iff
it is not in pending, no pending transaction reserves its filename, and no
block on the main chain from tail to genesis contains it or reserves its
filename; on false the state is unchanged. -/
theorem c7_addTransaction_accepts_iff_fresh (st : BMState) (tx : TxPublish) :
    ((addTransaction st tx).1 = true ↔
      (tx.File ∉ st.pendingTx ∧ (∀ f ∈ st.pendingTx, f.Name ≠ tx.File.Name) ∧
        ∀ n ∈ chainNodes st.tail, tx.File ∉ n.txSet ∧ ∀ f ∈ n.txSet, f.Name ≠ tx.File.Name)) ∧
    ((addTransaction st tx).1 = true →
      (addTransaction st tx).2 = { st with pendingTx := st.pendingTx ++ [tx.File] }) ∧
    ((addTransaction st tx).1 = false → (addTransaction st tx).2 = st) := by
  refine ⟨?_, ?_, ?_⟩ <;> unfold addTransaction <;> split_ifs with h1 h2 h3 <;>
    simp_all only [if_true, if_false, tsAdd, and_imp, not_true_eq_false, not_false_eq_true,
      Bool.false_eq_true, Bool.true_eq_false, false_iff, true_iff, forall_true_left,
      implies_true, true_and, and_true] <;>
    try exact fun h => h.elim
  · rw [tsContains_iff] at h1
    rintro ⟨ha, -, -⟩
    exact ha h1
  · rw [tsContainsFilename_iff] at h2
    rintro ⟨-, hb, -⟩
    obtain ⟨f, hf, he⟩ := h2
    exact hb f hf he
  · rw [chainBlocksTx_iff] at h3
    rintro ⟨-, -, hc⟩
    obtain ⟨n, hn, hcase⟩ := h3
    rcases hcase with hm | ⟨f, hf, he⟩
    · exact (hc n hn).1 hm
    · exact (hc n hn).2 f hf he
  · rw [tsContains_iff] at h1
    rw [tsContainsFilename_iff] at h2
    rw [chainBlocksTx_iff] at h3
    push_neg at h2 h3
    refine ⟨h1, h2, fun n hn => ⟨(h3 n hn).1, (h3 n hn).2⟩⟩

theorem foldl_if_append (p : List Nat → Bool) (x : SearchResult) (ks : List (List Nat)) :
    ∀ acc : List SearchResult,
      ks.foldl (fun acc kw => if p kw then acc ++ [x] else acc) acc =
        acc ++ List.replicate (ks.countP p) x := by
  induction ks with
  | nil => intro acc; simp
  | cons k ks ih =>
    intro acc
    by_cases hk : p k = true
    · simp [List.foldl_cons, hk, ih, List.countP_cons, List.replicate_succ]
    · simp [List.foldl_cons, hk, ih, List.countP_cons]

theorem getSearchResults_eq_replicate (sf : sharedFile) (keywords : List (List Nat)) :
    sf.getSearchResults keywords =
      List.replicate (keywords.countP (fun kw => keywordMatches kw sf.Name))
        (mkSearchResult sf) := by
  unfold sharedFile.getSearchResults
  simpa using foldl_if_append (fun kw => keywordMatches kw sf.Name) (mkSearchResult sf) keywords []

/-- C4 counterexample: the keyword `"x."` (bytes 120, 46) is not a substring of
the filename `"xy"` (bytes 120, 121), yet `getSearchResults` reports a match,
because keywords are interpolated into a regular expression where `.` matches
any character. -/
theorem c4_keyword_acts_as_regex :
    (shareFileModel [120, 121] [5]).getSearchResults [[120, 46]] ≠ [] ∧
    ¬ [120, 46] <:+: [120, 121] := by
  refine ⟨?_, by decide⟩
  rw [getSearchResults_eq_replicate]
  have h1 : ([[120, 46]] : List (List Nat)).countP
      (fun kw => keywordMatches kw (shareFileModel [120, 121] [5]).Name) = 1 := by decide
  rw [h1]
  simp

theorem patMatchWindow_nil_cons (x : Nat) (xs : List Nat) :
    patMatchWindow [] (x :: xs) = false := rfl

theorem patMatchWindow_cons_nil (p : PatC) (ps : List PatC) :
    patMatchWindow (p :: ps) [] = false := by cases p <;> rfl

theorem patMatchWindow_lit_cons (c : Nat) (ps : List PatC) (x : Nat) (xs : List Nat) :
    patMatchWindow (.lit c :: ps) (x :: xs) = ((c == x) && patMatchWindow ps xs) := rfl

theorem patMatchWindow_lit_iff (w : List Nat) : ∀ v : List Nat,
    patMatchWindow (w.map PatC.lit) v = true ↔ v = w := by
  induction w with
  | nil =>
    intro v
    cases v with
    | nil => simp [patMatchWindow]
    | cons x xs => simp [patMatchWindow_nil_cons]
  | cons c cs ih =>
    intro v
    cases v with
    | nil => simp [patMatchWindow_cons_nil]
    | cons x xs =>
      rw [List.map_cons, patMatchWindow_lit_cons]
      simp only [Bool.and_eq_true, beq_iff_eq, ih xs, List.cons.injEq]
      constructor
      · rintro ⟨rfl, rfl⟩; exact ⟨rfl, rfl⟩
      · rintro ⟨rfl, rfl⟩; exact ⟨rfl, rfl⟩

theorem exists_window_iff_infix (w name : List Nat) :
    (∃ i, i < name.length + 1 ∧ (name.drop i).take w.length = w) ↔ w <:+: name := by
  constructor
  · rintro ⟨i, hi, hw⟩
    refine ⟨name.take i, (name.drop i).drop w.length, ?_⟩
    have h2 : w ++ (name.drop i).drop w.length = name.drop i := by
      conv_rhs => rw [← List.take_append_drop w.length (name.drop i)]
      rw [hw]
    rw [List.append_assoc, h2, List.take_append_drop]
  · rintro ⟨s, t, rfl⟩
    refine ⟨s.length, ?_, ?_⟩
    · simp [List.length_append]
      omega
    · rw [List.append_assoc, List.drop_left, List.take_left]

theorem keywordMatches_plain (kw name : List Nat)
    (h : ∀ c ∈ kw, c ∉ regexMeta ∧ c ≠ 46) :
    (keywordMatches kw name = true) ↔ kw <:+: name := by
  have hany : kw.any (fun c => regexMeta.contains c) = false := by
    rw [List.any_eq_false]
    intro c hc
    simpa using (h c hc).1
  have hmap : kw.map (fun c => if c = 46 then PatC.dot else PatC.lit c) = kw.map PatC.lit :=
    List.map_congr_left (fun c hc => by simp [(h c hc).2])
  have hcomp : compileKeyword kw = some (kw.map PatC.lit) := by
    unfold compileKeyword
    rw [hany]
    simp [hmap]
  unfold keywordMatches
  rw [hcomp]
  simp only [List.any_eq_true, List.mem_range, List.length_map, patMatchWindow_lit_iff]
  exact exists_window_iff_infix kw name

/-- C4 amended: keywords are interpolated into a Go regular expression, not
compared as plain substrings; restricted to keywords free of regex
metacharacters (including `.`), a shared file's name is reported iff some
keyword is a substring of it. -/
theorem c4_substring_match_for_plain_keywords (name bytes : List Nat)
    (keywords : List (List Nat))
    (hplain : ∀ kw ∈ keywords, ∀ c ∈ kw, c ∉ regexMeta ∧ c ≠ 46) :
    ((shareFileModel name bytes).getSearchResults keywords ≠ [] ↔
      ∃ kw ∈ keywords, kw <:+: name) := by
  rw [getSearchResults_eq_replicate]
  have hname : (shareFileModel name bytes).Name = name := rfl
  rw [hname]
  constructor
  · intro hne
    have hpos : 0 < keywords.countP (fun kw => keywordMatches kw name) := by
      by_contra hz
      push_neg at hz
      have h0 : keywords.countP (fun kw => keywordMatches kw name) = 0 := by omega
      rw [h0] at hne
      simp at hne
    obtain ⟨kw, hkw, hp⟩ := List.countP_pos.mp hpos
    exact ⟨kw, hkw, (keywordMatches_plain kw name (hplain kw hkw)).mp hp⟩
  · rintro ⟨kw, hkw, hinf⟩
    have hp : keywordMatches kw name = true :=
      (keywordMatches_plain kw name (hplain kw hkw)).mpr hinf
    have hpos : 0 < keywords.countP (fun kw => keywordMatches kw name) :=
      List.countP_pos.mpr ⟨kw, hkw, hp⟩
    intro he
    rw [List.replicate_eq_nil] at he
    omega

theorem c4_substring_match_for_plain_keywords_witness :
    (∀ kw ∈ ([[98]] : List (List Nat)), ∀ c ∈ kw, c ∉ regexMeta ∧ c ≠ 46) ∧
    (shareFileModel [97, 98] [7]).getSearchResults [[98]] ≠ [] :=
  ⟨by decide,
    (c4_substring_match_for_plain_keywords [97, 98] [7] [[98]] (by decide)).mpr
      ⟨[98], by decide, by decide⟩⟩

theorem dedupKeep_go (l : List (List Nat)) :
    ∀ acc : List (List Nat), acc.Nodup →
      (l.foldl (fun acc h => if acc.contains h then acc else acc ++ [h]) acc).Nodup ∧
      ∀ x, x ∈ l.foldl (fun acc h => if acc.contains h then acc else acc ++ [h]) acc ↔
        x ∈ acc ∨ x ∈ l := by
  induction l with
  | nil =>
    intro acc hacc
    exact ⟨hacc, by simp⟩
  | cons h hs ih =>
    intro acc hacc
    simp only [List.foldl_cons]
    by_cases hc : acc.contains h = true
    · rw [if_pos hc]
      have hmem : h ∈ acc := by simpa using hc
      obtain ⟨n1, m1⟩ := ih acc hacc
      refine ⟨n1, fun x => ?_⟩
      rw [m1 x, List.mem_cons]
      constructor
      · rintro (hx | hx)
        · exact Or.inl hx
        · exact Or.inr (Or.inr hx)
      · rintro (hx | hx | hx)
        · exact Or.inl hx
        · subst hx; exact Or.inl hmem
        · exact Or.inr hx
    · rw [if_neg hc]
      have hmem : h ∉ acc := by simpa using hc
      have hnodup : (acc ++ [h]).Nodup := by
        rw [List.nodup_append]
        refine ⟨hacc, List.nodup_singleton h, fun a ha hb => ?_⟩
        rw [List.mem_singleton] at hb
        exact hmem (hb ▸ ha)
      obtain ⟨n1, m1⟩ := ih (acc ++ [h]) hnodup
      refine ⟨n1, fun x => ?_⟩
      rw [m1 x, List.mem_append, List.mem_singleton, List.mem_cons]
      constructor
      · rintro ((hx | hx) | hx)
        · exact Or.inl hx
        · exact Or.inr (Or.inl hx)
        · exact Or.inr (Or.inr hx)
      · rintro (hx | hx | hx)
        · exact Or.inl (Or.inl hx)
        · exact Or.inl (Or.inr hx)
        · exact Or.inr hx

theorem dedupKeep_nodup (l : List (List Nat)) : (dedupKeep l).Nodup :=
  (dedupKeep_go l [] List.nodup_nil).1

theorem mem_dedupKeep (l : List (List Nat)) (x : List Nat) : x ∈ dedupKeep l ↔ x ∈ l := by
  have h := (dedupKeep_go l [] List.nodup_nil).2 x
  simpa [dedupKeep] using h

/-- The deduplicated hash list counts exactly the distinct chunk hashes. -/
theorem dedupKeep_length (l : List (List Nat)) : (dedupKeep l).length = l.toFinset.card := by
  rw [← List.toFinset_card_of_nodup (dedupKeep_nodup l)]
  congr 1
  ext x
  simp [mem_dedupKeep]

theorem toFinset_card_lt_of_not_nodup (l : List (List Nat)) (h : ¬l.Nodup) :
    l.toFinset.card < l.length := by
  rw [List.card_toFinset]
  have hsub : l.dedup.Sublist l := List.dedup_sublist l
  have hle := hsub.length_le
  rcases Nat.lt_or_ge l.dedup.length l.length with hlt | hge
  · exact hlt
  · exact absurd ((hsub.eq_of_length (le_antisymm hle hge)) ▸ List.nodup_dedup l) h

/-- C10: every search result of a shared file has `len(ChunkMap) = ChunkCount`
with `ChunkMap = [1, …, ChunkCount]` (so the file is always reported as a full
match), `ChunkCount` is the number of distinct chunk hashes, and a file with
duplicate chunks reports a `ChunkCount` smaller than its actual chunk count. -/
theorem c10_search_result_full_match_accounting (name bytes : List Nat)
    (keywords : List (List Nat)) (r : SearchResult)
    (h : r ∈ (shareFileModel name bytes).getSearchResults keywords) :
    r.ChunkMap.length = r.ChunkCount ∧
    r.ChunkMap = (List.range r.ChunkCount).map (fun i => i + 1) ∧
    r.ChunkCount = ((splitInChunks bytes).map sha256Bytes).toFinset.card ∧
    (¬(splitInChunks bytes).Nodup → r.ChunkCount < (splitInChunks bytes).length) := by
  rw [getSearchResults_eq_replicate] at h
  have hr : r = mkSearchResult (shareFileModel name bytes) := List.eq_of_mem_replicate h
  subst hr
  have hset : (shareFileModel name bytes).MetaSet =
      dedupKeep ((splitInChunks bytes).map sha256Bytes) := rfl
  refine ⟨by simp [mkSearchResult], by simp [mkSearchResult], ?_, ?_⟩
  · show (shareFileModel name bytes).MetaSet.length = _
    rw [hset, dedupKeep_length]
  · intro hdup
    have hdup2 : ¬((splitInChunks bytes).map sha256Bytes).Nodup := fun hn => hdup hn.of_map
    have hlt := toFinset_card_lt_of_not_nodup _ hdup2
    have hlen : ((splitInChunks bytes).map sha256Bytes).length = (splitInChunks bytes).length :=
      List.length_map _ _
    show (shareFileModel name bytes).MetaSet.length < _
    rw [hset, dedupKeep_length]
    omega

theorem splitInChunksF_nil (fuel : Nat) : splitInChunksF fuel [] = [] := by
  cases fuel <;> rfl

theorem splitInChunksF_single (fuel x : Nat) (xs : List Nat)
    (h : (x :: xs).length ≤ FileChunkSize) :
    splitInChunksF (fuel + 1) (x :: xs) = [x :: xs] := by
  show (x :: xs).take FileChunkSize :: splitInChunksF fuel ((x :: xs).drop FileChunkSize) = _
  rw [List.take_of_length_le h, List.drop_eq_nil_of_le h, splitInChunksF_nil]

theorem splitInChunksF_append_two (fuel : Nat) (l1 l2 : List Nat)
    (h1 : l1.length = FileChunkSize) (h2 : l2 ≠ []) (h3 : l2.length ≤ FileChunkSize) :
    splitInChunksF (fuel + 2) (l1 ++ l2) = [l1, l2] := by
  obtain ⟨x, xs, rfl⟩ : ∃ x xs, l1 = x :: xs := by
    cases l1 with
    | nil => simp [FileChunkSize] at h1
    | cons x xs => exact ⟨x, xs, rfl⟩
  obtain ⟨y, ys, rfl⟩ : ∃ y ys, l2 = y :: ys := by
    cases l2 with
    | nil => exact absurd rfl h2
    | cons y ys => exact ⟨y, ys, rfl⟩
  show splitInChunksF (fuel + 1 + 1) ((x :: xs) ++ (y :: ys)) = _
  rw [List.cons_append]
  show (x :: (xs ++ (y :: ys))).take FileChunkSize ::
    splitInChunksF (fuel + 1) ((x :: (xs ++ (y :: ys))).drop FileChunkSize) = _
  rw [← List.cons_append, ← h1, List.take_left, List.drop_left]
  rw [splitInChunksF_single fuel y ys h3]

/-- Splitting a file of exactly two chunk-sizes of one repeated byte yields two
equal chunks. -/
theorem splitInChunks_double (b : Nat) :
    splitInChunks (List.replicate (2 * FileChunkSize) b) =
      [List.replicate FileChunkSize b, List.replicate FileChunkSize b] := by
  have hcs2 : 2 ≤ FileChunkSize := by decide
  have e : List.replicate (2 * FileChunkSize) b =
      List.replicate FileChunkSize b ++ List.replicate FileChunkSize b := by
    rw [← List.replicate_add]
    have h2 : 2 * FileChunkSize = FileChunkSize + FileChunkSize := by omega
    rw [h2]
  unfold splitInChunks
  rw [e]
  have hlen : (List.replicate FileChunkSize b ++ List.replicate FileChunkSize b).length =
      (FileChunkSize + FileChunkSize - 2) + 2 := by
    rw [List.length_append, List.length_replicate]
    omega
  rw [hlen]
  refine splitInChunksF_append_two _ _ _ (List.length_replicate _ _) ?_ (by
    rw [List.length_replicate])
  rw [ne_eq, List.replicate_eq_nil]
  omega

theorem c10_search_result_full_match_accounting_witness :
    (mkSearchResult (shareFileModel [97] (List.replicate (2 * FileChunkSize) 5)) ∈
      (shareFileModel [97] (List.replicate (2 * FileChunkSize) 5)).getSearchResults [[97]]) ∧
    (mkSearchResult (shareFileModel [97] (List.replicate (2 * FileChunkSize) 5))).ChunkCount <
      (splitInChunks (List.replicate (2 * FileChunkSize) 5)).length := by
  have hmem : mkSearchResult (shareFileModel [97] (List.replicate (2 * FileChunkSize) 5)) ∈
      (shareFileModel [97] (List.replicate (2 * FileChunkSize) 5)).getSearchResults [[97]] := by
    rw [getSearchResults_eq_replicate]
    have h1 : ([[97]] : List (List Nat)).countP
        (fun kw => keywordMatches kw
          (shareFileModel [97] (List.replicate (2 * FileChunkSize) 5)).Name) = 1 := by
      have hname : (shareFileModel [97] (List.replicate (2 * FileChunkSize) 5)).Name = [97] :=
        rfl
      rw [hname]
      decide
    rw [h1]
    simp
  refine ⟨hmem, ?_⟩
  refine (c10_search_result_full_match_accounting [97] _ [[97]] _ hmem).2.2.2 ?_
  rw [splitInChunks_double]
  simp

/-- C1: the claim fails on the code.  In the fork-wins branch `addBlock` finds
the lowest common ancestor, rolls the old branch's transactions back into
pending and subtracts the new branch's transactions — but never reassigns
`bm.tail`, although the manager documents `tail` as the tail of the longest
chain.  Concretely: after `blockA` (tail, depth 1) and sibling `blockB1`,
accepting `blockB2` (depth 2, off the other branch) reconciles pending exactly
as the claim describes, yet the tail stays at the depth-1 node of `blockA`. -/
theorem c1_fork_reconciles_pending_but_never_updates_tail :
    forkStep.1 = true ∧
    forkStep.2.pendingTx = [fA] ∧
    forkStep.2.tail = BlockNode.node BlockNode.fake blockA ∧
    forkStep.2.tail.depth = 1 ∧
    (BlockNode.node (BlockNode.node BlockNode.fake blockB1) blockB2).depth = 2 := by decide

theorem c6_monger_toward_random_peer_witness :
    (1 = storageNextId [] [97]) ∧
    (([[9], [8]] : List (List Nat)).get? 1 = some [8]) ∧
    (([8] : List Nat) ∉ ([] : List (List Nat))) ∧
    (processRumorMessage [] [[9], [8]] [] 1 { OriginalName := [97], ID := 1, Text := [] }).2 =
      some [8] :=
  ⟨rfl, rfl, by decide,
    c6_monger_toward_random_peer [] [[9], [8]] [] 1
      { OriginalName := [97], ID := 1, Text := [] } [8] rfl rfl (by decide)⟩

end Peerster
